import Mathlib

/-!
Shallow embedding of the download-scheduling core of the youtubemaster
repository (src/youtubemaster/models/DownloadManager.py), together with
proofs about the claims of its design specification.

Conventions of the embedding:
* Python lists/dicts over url keys become Lean `List String`; `_active`
  (a dict url -> thread) is modelled by its key list in insertion order.
* The per-url metadata dict becomes a function `String → Option Meta`.
* Python ints that the code clamps are modelled as `Int` at the clamp and
  `Nat` in the state; `available_slots = max_concurrent - len(active)`
  uses truncated `Nat` subtraction, which agrees with the Python code
  because a negative `min(available_slots, len(queue))` makes
  `range(...)` empty, exactly as `Nat` subtraction yields zero moves.
-/

namespace YoutubeMaster

/-- One per-url metadata record, mirroring the dict created in
`DownloadManager.add_download` (keys `url`, `title`, `status`, `progress`,
`thumbnail`, `format_options`, `output_dir`) plus the keys the code adds
later by assignment (`stats`, `filename`, `dismissable`), carried here
from the start with inert defaults. -/
structure Meta where
  url : String
  title : String
  status : String
  progress : Nat
  thumbnail : Option String
  format_options : String
  output_dir : String
  stats : String
  filename : Option String
  dismissable : Bool
  deriving Repr, DecidableEq

/-- The shared mutable state of `DownloadManager`: the four url
collections and the metadata map, plus the concurrency limit. -/
structure MState where
  queue : List String
  active : List String
  completed : List String
  errors : List String
  metadata : String → Option Meta
  max_concurrent : Nat

/-- Insert or overwrite a metadata entry (`self._metadata[url] = {...}`). -/
def setMeta (m : String → Option Meta) (k : String) (v : Meta) : String → Option Meta :=
  fun x => if x = k then some v else m x

/-- Delete a metadata entry (`del self._metadata[url]`). -/
def removeMeta (m : String → Option Meta) (k : String) : String → Option Meta :=
  fun x => if x = k then none else m x

/-- Update a metadata entry in place when present
(`self._metadata[url][...] = ...`, always guarded in the code by
`if url in self._metadata` or by the invariant that queued urls have
metadata). -/
def updMeta (m : String → Option Meta) (k : String) (f : Meta → Meta) :
    String → Option Meta :=
  fun x => if x = k then (m x).map f else m x

/-- Number of jobs `_process_queue` admits:
`min(available_slots, len(queue))` with
`available_slots = max_concurrent - len(active)` (truncated). -/
def admitCount (s : MState) : Nat :=
  min (s.max_concurrent - s.active.length) s.queue.length

/-- The metadata mutation `_process_queue` applies to each admitted
url: `metadata['status'] = 'Starting'; metadata['stats'] = 'Initializing...'`. -/
def markStarting (me : Meta) : Meta :=
  { me with status := "Starting", stats := "Initializing..." }

/-- `DownloadManager._process_queue` (state part): pop up to
`available_slots` urls from the front of the queue, mark each
`'Starting'` with stats `'Initializing...'`, and append them to the
active set. -/
def process_queue (s : MState) : MState :=
  let n := admitCount s
  let moved := s.queue.take n
  { s with
    queue := s.queue.drop n
    active := s.active ++ moved
    metadata := moved.foldl (fun m u => updMeta m u markStarting) s.metadata }

/-- The metadata record `add_download` creates for a fresh url. -/
def initMeta (cleanUrl : String) (format_options output_dir : Option String) : Meta :=
  { url := cleanUrl
    title := "Loading..."
    status := "Queued"
    progress := 0
    thumbnail := none
    format_options := format_options.getD "best"
    output_dir := output_dir.getD "~/Downloads"
    stats := ""
    filename := none
    dismissable := false }

/-- The under-lock insert step of `DownloadManager.add_download`:
append the clean url to the queue and initialize its metadata. -/
def enqueue (s : MState) (cleanUrl : String) (format_options output_dir : Option String) :
    MState :=
  { s with
    queue := s.queue ++ [cleanUrl]
    metadata := setMeta s.metadata cleanUrl (initMeta cleanUrl format_options output_dir) }

/-- Presence of a url in any of the four collections, the duplicate
check of `add_download`. -/
def inAny (s : MState) (k : String) : Prop :=
  k ∈ s.queue ∨ k ∈ s.active ∨ k ∈ s.completed ∨ k ∈ s.errors

instance (s : MState) (k : String) : Decidable (inAny s k) := by
  unfold inAny; infer_instance

/-- `DownloadManager.add_download` over an already-normalized url
(`clean_url = SiteModel.get_clean_url(url)` happens upstream): reject if
the url is in any collection, otherwise enqueue and run
`_process_queue`. -/
def add_download (s : MState) (cleanUrl : String)
    (format_options output_dir : Option String) : MState × Bool :=
  if inAny s cleanUrl then (s, false)
  else (process_queue (enqueue s cleanUrl format_options output_dir), true)

/-- `DownloadManager.set_max_concurrent`: clamp to `[1,5]`
(`max(1, min(5, value))`), store, run `_process_queue`. -/
def clampConcurrent (value : Int) : Nat :=
  (max 1 (min 5 value)).toNat

def set_max_concurrent (s : MState) (value : Int) : MState :=
  process_queue { s with max_concurrent := clampConcurrent value }

/-- `DownloadManager._on_complete` (state part): pop the url from
active if present, append to completed if absent there, record
status/progress/output location, and re-run `_process_queue` only when
a slot was actually freed. -/
def complete_update (s : MState) (url : String) (output_dir : String)
    (filename : Option String) : MState :=
  { s with
    active := s.active.erase url
    completed := if url ∈ s.completed then s.completed else s.completed ++ [url]
    metadata := updMeta s.metadata url
      (fun me => { me with status := "Complete", progress := 100,
                           output_dir := output_dir, filename := filename }) }

def on_complete (s : MState) (url : String) (output_dir : String)
    (filename : Option String) : MState :=
  if url ∈ s.active then process_queue (complete_update s url output_dir filename)
  else complete_update s url output_dir filename

/-- `DownloadManager._on_error` (state part): everything is guarded by
`url in self._active`; the url moves from active to the error list,
its metadata is marked dismissable `'Error'`, and `_process_queue`
refills the freed slot. -/
def on_error (s : MState) (url : String) (error_message : String) : MState :=
  if url ∈ s.active then
    process_queue
      { s with
        active := s.active.erase url
        errors := if url ∈ s.errors then s.errors else s.errors ++ [url]
        metadata := updMeta s.metadata url
          (fun me => { me with status := "Error", stats := error_message, dismissable := true }) }
  else s

/-- `DownloadManager.cancel_download` (state part, branch order as in
the code): active first (pop, keep metadata, mark `'Cancelled'`), then
queued (remove url and metadata), then error list, then completed, then
a metadata-only entry; `_process_queue` runs whenever something was
found. -/
def cancel_download (s : MState) (url : String) : MState :=
  if url ∈ s.active then
    process_queue
      { s with
        active := s.active.erase url
        metadata := updMeta s.metadata url (fun me => { me with status := "Cancelled" }) }
  else if url ∈ s.queue then
    process_queue { s with queue := s.queue.erase url, metadata := removeMeta s.metadata url }
  else if url ∈ s.errors then
    process_queue { s with errors := s.errors.erase url, metadata := removeMeta s.metadata url }
  else if url ∈ s.completed then
    process_queue { s with completed := s.completed.erase url, metadata := removeMeta s.metadata url }
  else if (s.metadata url).isSome then
    process_queue { s with metadata := removeMeta s.metadata url }
  else s

/-- `DownloadManager.dismiss_error`: remove from the error list and the
metadata map. -/
def dismiss_error (s : MState) (url : String) : MState :=
  { s with errors := s.errors.erase url, metadata := removeMeta s.metadata url }

/-- The operations a caller or a worker callback can perform on the
manager. -/
inductive Op
  | submit (cleanUrl : String) (format_options output_dir : Option String)
  | pump
  | setMax (value : Int)
  | complete (url : String) (output_dir : String) (filename : Option String)
  | error (url : String) (message : String)
  | cancel (url : String)
  | dismiss (url : String)

def applyOp (s : MState) : Op → MState
  | .submit u f d => (add_download s u f d).1
  | .pump => process_queue s
  | .setMax v => set_max_concurrent s v
  | .complete u d f => on_complete s u d f
  | .error u m => on_error s u m
  | .cancel u => cancel_download s u
  | .dismiss u => dismiss_error s u

/-- The manager's initial state (`DownloadManager.__init__`):
empty collections, `_max_concurrent = 2`. -/
def initState : MState :=
  { queue := [], active := [], completed := [], errors := []
    metadata := fun _ => none, max_concurrent := 2 }

/-- Run a sequence of operations from the initial state. -/
def runOps (ops : List Op) : MState :=
  ops.foldl applyOp initState

/-- A state of the manager is reachable when some operation sequence
produces it. -/
def Reachable (s : MState) : Prop :=
  ∃ ops : List Op, runOps ops = s

/-! ### Worker model (`DownloadThread.run`)

Strings are handled through their character lists so that all
predicates evaluate by kernel reduction. -/

/-- Python's `pat in msg` substring test, on character lists. -/
def inStr (pat : List Char) : List Char → Bool
  | [] => pat.isEmpty
  | l@(_ :: rest) => pat.isPrefixOf l || inStr pat rest

/-- `pat in msg` on strings. -/
def containsSub (msg pat : String) : Bool :=
  inStr pat.data msg.data

/-- Scan for the first match of the pattern `HTTP Error \d+` and return
the digit group, mirroring `re.search(r"HTTP Error (\d+)", ...)`. -/
def httpCodeScan : List Char → Option (List Char)
  | [] => none
  | l@(_ :: rest) =>
    if "HTTP Error ".data.isPrefixOf l then
      let digits := (l.drop "HTTP Error ".data.length).takeWhile Char.isDigit
      if digits.isEmpty then httpCodeScan rest else some digits
    else httpCodeScan rest

/-- `re.search(r"HTTP Error \d+", error_message)` succeeded. -/
def hasHttpErrorCode (msg : String) : Bool :=
  (httpCodeScan msg.data).isSome

/-- The error classes distinguished by the branch chain inside
`DownloadThread.run`'s download retry loop. -/
inductive DlClass
  | transient
  | forbidden403
  | region
  | privateVid
  | httpOther
  | other
  deriving Repr, DecidableEq

/-- Classification of a `DownloadError` message, in the exact branch
order of the retry loop: the `urlopen error` checks come first, then
HTTP 403, regional restriction, private/age-restricted, then any other
`HTTP Error \d+`, and finally the unmatched case that is re-raised. -/
def classifyDlError (msg : String) : DlClass :=
  if containsSub msg "urlopen error timed out" || containsSub msg "urlopen error" then
    .transient
  else if containsSub msg "HTTP Error 403: Forbidden" then .forbidden403
  else if containsSub msg "This video is not available in your country" then .region
  else if containsSub msg "Private video" || containsSub msg "Sign in to confirm your age" then
    .privateVid
  else if hasHttpErrorCode msg then .httpOther
  else .other

/-- The user-facing message each terminal branch emits with
`error_signal` before returning from the thread. -/
def terminalMessage (c : DlClass) (msg : String) : String :=
  match c with
  | .forbidden403 =>
    "Access forbidden (HTTP 403). YouTube may be limiting downloads or restricting this video."
  | .region => "Video unavailable in your region due to geographical restrictions."
  | .privateVid => "This video is private, age-restricted, or requires sign-in."
  | .httpOther =>
    let code := match httpCodeScan msg.data with
      | some ds => String.mk ds
      | none => "unknown"
    "Server returned HTTP error " ++ code ++ ". Please try again later."
  | _ => msg

/-- What one `ydl.download([...])` call does, as seen by the retry
loop: it returns, raises a `DownloadError`, aborts with the plain
exception the progress hook raises after seeing `status == 'error'`
(the hook has already emitted one `error_signal` by then), or aborts
with the plain cancellation exception (no signal emitted by the
hook). -/
inductive AttemptResult
  | ok
  | dlError (msg : String)
  | hookError (msg : String)
  | cancelledAbort
  deriving Repr, DecidableEq

/-- How the retry loop ends: success (`break`), an in-loop
`error_signal` + `return` (terminal branches), a re-raised
`DownloadError` (transient retries exhausted, or the unmatched `else`),
or a propagating plain exception (raised inside the progress hook). -/
inductive RunOutcome
  | completed
  | errorReturn (msg : String)
  | raisedDl (msg : String)
  | raisedPlain (msg : String)
  deriving Repr, DecidableEq

/-- Result of the retry loop: its outcome, the number of
`ydl.download` attempts made, and the number of `error_signal`
emissions that happened during the loop (from the hook or the terminal
branches). -/
structure LoopResult where
  outcome : RunOutcome
  attempts : Nat
  errorSignals : Nat
  deriving Repr, DecidableEq

/-- The download retry loop of `DownloadThread.run`
(`while retry_count < max_retries`).  `fuel` stands for
`max_retries - retry_count`, so the `retry_count + 1 >= max_retries`
re-raise of the transient branch is the `fuel = 1` case; `attemptIdx`
counts the `ydl.download` calls already made. -/
def dlLoopGo (engine : Nat → AttemptResult) : Nat → Nat → LoopResult
  | 0, attemptIdx => ⟨.completed, attemptIdx, 0⟩
  | fuel + 1, attemptIdx =>
    match engine attemptIdx with
    | .ok => ⟨.completed, attemptIdx + 1, 0⟩
    | .hookError msg =>
      ⟨.raisedPlain ("Download error: " ++ msg), attemptIdx + 1, 1⟩
    | .cancelledAbort =>
      ⟨.raisedPlain "Download cancelled by user", attemptIdx + 1, 0⟩
    | .dlError msg =>
      match classifyDlError msg with
      | .transient =>
        match fuel with
        | 0 => ⟨.raisedDl msg, attemptIdx + 1, 0⟩
        | f + 1 => dlLoopGo engine (f + 1) (attemptIdx + 1)
      | .forbidden403 => ⟨.errorReturn (terminalMessage .forbidden403 msg), attemptIdx + 1, 1⟩
      | .region => ⟨.errorReturn (terminalMessage .region msg), attemptIdx + 1, 1⟩
      | .privateVid => ⟨.errorReturn (terminalMessage .privateVid msg), attemptIdx + 1, 1⟩
      | .httpOther => ⟨.errorReturn (terminalMessage .httpOther msg), attemptIdx + 1, 1⟩
      | .other => ⟨.raisedDl msg, attemptIdx + 1, 0⟩

/-- The download retry loop entered with `retry_count = 0` and
`max_retries` attempts available (`max_retries = 3` in the code). -/
def downloadLoop (engine : Nat → AttemptResult) (maxRetries : Nat) : LoopResult :=
  dlLoopGo engine maxRetries 0

/-- Total number of `error_signal` emissions of the whole
`DownloadThread.run` for a given loop result: emissions made during the
loop, plus one from `except DownloadError` when a `DownloadError`
escapes, plus one from `except Exception` when a plain exception
escapes. -/
def runErrorSignals (r : LoopResult) : Nat :=
  r.errorSignals +
    match r.outcome with
    | .completed => 0
    | .errorReturn _ => 0
    | .raisedDl _ => 1
    | .raisedPlain _ => 1

/-- The class of an attempt's `DownloadError`, when it raised one. -/
def attemptClass (r : AttemptResult) : Option DlClass :=
  match r with
  | .dlError m => some (classifyDlError m)
  | _ => none

/-- The terminal classes of the claim: forbidden, region-blocked,
private/age-restricted, and any other HTTP error code. -/
def IsTerminalClass (c : DlClass) : Prop :=
  c = .forbidden403 ∨ c = .region ∨ c = .privateVid ∨ c = .httpOther

instance (c : DlClass) : Decidable (IsTerminalClass c) := by
  unfold IsTerminalClass
  infer_instance

/-! ### Output-filename identification (`DownloadThread.run`, after the
download; the same logic appears in `CLIDownloadWorker.run`) -/

/-- `f.lower().endswith(ext)` on character lists. -/
def lowerEndsWith (f : List Char) (ext : List Char) : Bool :=
  ext.reverse.isPrefixOf (f.map Char.toLower).reverse

/-- `media_extensions` from the source. -/
def media_extensions : List String :=
  [".mp4", ".webm", ".mkv", ".mp3", ".m4a", ".opus"]

/-- `any(f.lower().endswith(ext) for ext in media_extensions)`. -/
def isMediaFile (f : String) : Bool :=
  media_extensions.any (fun ext => lowerEndsWith f.data ext.data)

/-- Python's `max(..., key=...)` over a non-empty list: keep the current
maximum unless a strictly larger element appears, so the first maximal
element wins. -/
def pyMaxBySize : List (String × Nat) → Option (String × Nat)
  | [] => none
  | x :: xs => some (xs.foldl (fun best y => if best.2 < y.2 then y else best) x)

/-- Identification of the downloaded file from the directory diff
(`new_files = files_after - files_before`), given the filename the
progress hook may have reported: a single new file is the output;
otherwise filter to media extensions and take the single one, or the
largest by size when several remain.  New files are listed with their
sizes (`os.path.getsize`). -/
def determineFilename (reported : Option String) (newFiles : List (String × Nat)) :
    Option String :=
  match reported with
  | some f => some f
  | none =>
    match newFiles with
    | [f] => some f.1
    | _ =>
      if 1 < newFiles.length then
        let mediaFiles := newFiles.filter (fun f => isMediaFile f.1)
        if mediaFiles.length = 1 then mediaFiles.head?.map Prod.fst
        else if 1 < mediaFiles.length then (pyMaxBySize mediaFiles).map Prod.fst
        else none
      else none

/-! ### Lock/emission traces (claim about emitting under the mutex) -/

/-- An observable action of a manager method: taking or releasing
`self._mutex`, or emitting a Qt signal. -/
inductive Act
  | lock
  | unlock
  | emit (signal : String)
  deriving Repr, DecidableEq

/-- Whether some `emit` happens while the lock depth is positive. -/
def emitsUnderLockGo : Nat → List Act → Bool
  | _, [] => false
  | d, .lock :: r => emitsUnderLockGo (d + 1) r
  | d, .unlock :: r => emitsUnderLockGo (d - 1) r
  | d, .emit _ :: r => (d != 0) || emitsUnderLockGo d r

def emitsUnderLock (trace : List Act) : Bool :=
  emitsUnderLockGo 0 trace

/-- Action trace of `DownloadManager._handle_metadata_finished`: it
locks the mutex and, when the url still has metadata, emits
`download_started` before unlocking. -/
def handle_metadata_finished_trace (urlPresent : Bool) : List Act :=
  [.lock] ++ (if urlPresent then [.emit "download_started"] else []) ++ [.unlock]

/-- Action trace of `DownloadManager._handle_metadata_error`: it emits
`log_message` first, then locks and, when the url still has metadata,
emits `download_started` before unlocking. -/
def handle_metadata_error_trace (urlPresent : Bool) : List Act :=
  [.emit "log_message", .lock]
    ++ (if urlPresent then [.emit "download_started"] else []) ++ [.unlock]

/-- Action trace of the under-lock part of
`DownloadManager.add_download` followed by its out-of-lock emissions
(for contrast: this method does follow the emit-outside-the-lock
discipline). -/
def add_download_trace (alreadyPresent : Bool) : List Act :=
  [.lock, .unlock] ++
    (if alreadyPresent then [] else [.emit "queue_updated", .emit "log_message"])

/-! ### Cancellation effects outside the lock (`cancel_download`) -/

/-- The non-state actions `cancel_download` performs after releasing the
lock when it found an active thread. -/
inductive CancelAct
  | signalCancelFlag
  | forceTerminate
  | waitAfterTerminate
  | cleanupTempFiles
  deriving Repr, DecidableEq

/-- Python truthiness of the `output_dir`/`video_title` values read from
the metadata (`if output_dir and video_title:`). -/
def truthy : Option String → Bool
  | none => false
  | some s => !s.isEmpty

/-- The out-of-lock tail of `DownloadManager.cancel_download`: signal
cooperative cancellation, wait up to the 3s grace period, force-terminate
when the thread did not stop in time — and then run
`_cleanup_temp_files` whenever an output directory and title are known,
regardless of whether force termination happened. -/
def cancel_post_lock_actions (threadFound stoppedInGrace : Bool)
    (output_dir video_title : Option String) : List CancelAct :=
  if threadFound then
    [.signalCancelFlag]
      ++ (if stoppedInGrace then [] else [.forceTerminate, .waitAfterTerminate])
      ++ (if truthy output_dir && truthy video_title then [.cleanupTempFiles] else [])
  else []

/-! ### Metadata/title updates -/

/-- The title-update guard of `DownloadManager._on_quick_metadata_ready`:
`if (title and not title.startswith("Loading:")) or
current_title.startswith("Loading")`. -/
def quickTitleUpdate (current_title incoming : String) : String :=
  if (!incoming.isEmpty && !("Loading:".data.isPrefixOf incoming.data))
      || "Loading".data.isPrefixOf current_title.data then
    incoming
  else current_title

/-- `DownloadManager._on_quick_metadata_ready` (state part): when the
url has metadata, apply the guarded title update and overwrite the
thumbnail only when a non-null pixmap arrived. -/
def on_quick_metadata_ready (s : MState) (url title : String) (pixmap : Option String) :
    MState :=
  { s with
    metadata := updMeta s.metadata url
      (fun me =>
        { me with
          title := quickTitleUpdate me.title title
          thumbnail := match pixmap with | some p => some p | none => me.thumbnail }) }

/-- `DownloadManager._handle_metadata_finished` (state part): when the
url has metadata, overwrite the stored title and thumbnail
unconditionally with the fetched values. -/
def handle_metadata_finished (s : MState) (url title : String) (pixmap : Option String) :
    MState :=
  { s with
    metadata := updMeta s.metadata url
      (fun me => { me with title := title, thumbnail := pixmap }) }

/-- The default the full metadata fetcher substitutes when the engine
reports no title (`info.get('title', 'Unknown Title')` in
`MetadataThread.run`). -/
def fullFetchFallbackTitle : String := "Unknown Title"

/-- Modelled from the spec: what §4.3 calls a placeholder title, the
generic values the code substitutes when no real title is available —
the `Loading...`/`Loading: ...` forms produced at submission and by the
quick-metadata fallback, and the hard-coded `Unknown Title` default of
the full metadata fetcher. -/
def isPlaceholderTitle (t : String) : Bool :=
  "Loading".data.isPrefixOf t.data || t = fullFetchFallbackTitle

/-! ### Invariants -/

/-- No url is duplicated inside or across the four collections. -/
def Inv (s : MState) : Prop :=
  (s.queue ++ s.active ++ s.completed ++ s.errors).Nodup

instance (s : MState) : Decidable (Inv s) := by
  unfold Inv
  infer_instance

/-- The bounds of the amended concurrency claim: the limit stays in
`[1,5]` and the active set never exceeds the largest possible limit. -/
def Bounds (s : MState) : Prop :=
  1 ≤ s.max_concurrent ∧ s.max_concurrent ≤ 5 ∧ s.active.length ≤ 5

/-! ### Concrete states used to exercise the theorems -/

/-- A state with two queued urls and one free slot. -/
def exPumpState : MState :=
  { queue := ["a", "b"], active := [], completed := [], errors := []
    metadata := fun x =>
      if x = "a" then some (initMeta "a" none none)
      else if x = "b" then some (initMeta "b" none none)
      else none
    max_concurrent := 1 }

/-- A state with one active url that carries a real (fetched) title. -/
def exRealTitleState : MState :=
  { queue := [], active := ["u"], completed := [], errors := []
    metadata := fun x =>
      if x = "u" then some { initMeta "u" none none with title := "My Real Video" }
      else none
    max_concurrent := 2 }

/-- The operation sequence that drives the active count above a freshly
lowered concurrency limit. -/
def overAdmitTrace : List Op :=
  [Op.submit "a" none none, Op.submit "b" none none, Op.setMax 1]

/-- A state with one queued url and one active url (the single slot is
taken). -/
def exMixedState : MState :=
  { queue := ["p"], active := ["a"], completed := [], errors := []
    metadata := fun x =>
      if x = "p" then some (initMeta "p" none none)
      else if x = "a" then some (markStarting (initMeta "a" none none))
      else none
    max_concurrent := 1 }

/-! ### Helper lemmas about the metadata map and `process_queue` -/

theorem updMeta_apply_self (m : String → Option Meta) (k : String) (f : Meta → Meta) :
    updMeta m k f k = (m k).map f := by
  simp [updMeta]

theorem updMeta_apply_ne (m : String → Option Meta) (k x : String) (f : Meta → Meta)
    (h : x ≠ k) : updMeta m k f x = m x := by
  simp [updMeta, h]

theorem foldl_updMeta_not_mem (f : Meta → Meta) (l : List String)
    (m : String → Option Meta) (k : String) (h : k ∉ l) :
    (l.foldl (fun m u => updMeta m u f) m) k = m k := by
  induction l generalizing m with
  | nil => rfl
  | cons a l ih =>
    simp only [List.mem_cons, not_or] at h
    rw [List.foldl_cons, ih _ h.2, updMeta_apply_ne _ _ _ _ h.1]

theorem foldl_updMeta_status (l : List String) (m : String → Option Meta) (k : String)
    (h : ((m k).map Meta.status = some "Starting") ∨ (k ∈ l ∧ (m k).isSome)) :
    ((l.foldl (fun m u => updMeta m u markStarting) m) k).map Meta.status
      = some "Starting" := by
  induction l generalizing m with
  | nil =>
    rcases h with h | h
    · exact h
    · exact absurd h.1 (List.not_mem_nil k)
  | cons a l ih =>
    rw [List.foldl_cons]
    apply ih
    by_cases hk : k = a
    · subst hk
      rcases h with h | h
      · left
        obtain ⟨me, hme⟩ := Option.map_eq_some'.mp h
        rw [updMeta_apply_self, hme.1]
        simp [markStarting]
      · left
        obtain ⟨me, hme⟩ := Option.isSome_iff_exists.mp h.2
        rw [updMeta_apply_self, hme]
        simp [markStarting]
    · rcases h with h | h
      · left
        rw [updMeta_apply_ne _ _ _ _ hk]
        exact h
      · right
        rcases List.mem_cons.mp h.1 with h1 | h1
        · exact absurd h1 hk
        · rw [updMeta_apply_ne _ _ _ _ hk]
          exact ⟨h1, h.2⟩

theorem process_queue_queue (s : MState) :
    (process_queue s).queue = s.queue.drop (admitCount s) := rfl

theorem process_queue_active (s : MState) :
    (process_queue s).active = s.active ++ s.queue.take (admitCount s) := rfl

theorem process_queue_completed (s : MState) :
    (process_queue s).completed = s.completed := rfl

theorem process_queue_errors (s : MState) :
    (process_queue s).errors = s.errors := rfl

theorem process_queue_max (s : MState) :
    (process_queue s).max_concurrent = s.max_concurrent := rfl

theorem process_queue_metadata (s : MState) :
    (process_queue s).metadata
      = (s.queue.take (admitCount s)).foldl (fun m u => updMeta m u markStarting)
          s.metadata := rfl

theorem admitCount_le_sub (s : MState) :
    admitCount s ≤ s.max_concurrent - s.active.length := min_le_left _ _

theorem admitCount_le_queue (s : MState) : admitCount s ≤ s.queue.length :=
  min_le_right _ _

theorem process_queue_active_length (s : MState) :
    (process_queue s).active.length = s.active.length + admitCount s := by
  rw [process_queue_active, List.length_append, List.length_take,
    Nat.min_eq_left (admitCount_le_queue s)]

theorem process_queue_active_le (s : MState) (h : s.active.length ≤ s.max_concurrent) :
    (process_queue s).active.length ≤ s.max_concurrent := by
  have h1 := admitCount_le_sub s
  rw [process_queue_active_length]
  omega

theorem process_queue_active_le_five (s : MState) (h5 : s.active.length ≤ 5)
    (hm : s.max_concurrent ≤ 5) : (process_queue s).active.length ≤ 5 := by
  have h1 := admitCount_le_sub s
  rw [process_queue_active_length]
  omega

theorem process_queue_inv (s : MState) (h : Inv s) : Inv (process_queue s) := by
  unfold Inv at h ⊢
  rw [process_queue_queue, process_queue_active, process_queue_completed,
    process_queue_errors]
  have hp : (s.queue ++ s.active ++ s.completed ++ s.errors).Perm
      (s.queue.drop (admitCount s)
        ++ (s.active ++ s.queue.take (admitCount s)) ++ s.completed ++ s.errors) := by
    rw [List.perm_iff_count]
    intro x
    have hc := congrArg (List.count x) (List.take_append_drop (admitCount s) s.queue)
    simp only [List.count_append] at hc ⊢
    omega
  exact hp.nodup h

theorem enqueue_inv (s : MState) (k : String) (fo od : Option String) (h : Inv s)
    (hk : ¬ inAny s k) : Inv (enqueue s k fo od) := by
  unfold Inv at h ⊢
  unfold inAny at hk
  push_neg at hk
  simp only [enqueue]
  simp only [List.append_assoc, List.singleton_append, List.cons_append,
    List.nil_append]
  rw [List.nodup_middle, List.nodup_cons]
  constructor
  · simp only [List.mem_append]
    rintro (h1 | h1 | h1 | h1)
    · exact hk.1 h1
    · exact hk.2.1 h1
    · exact hk.2.2.1 h1
    · exact hk.2.2.2 h1
  · simpa [List.append_assoc] using h

/-! ### Bounds preservation -/

theorem clampConcurrent_bounds (v : Int) :
    1 ≤ clampConcurrent v ∧ clampConcurrent v ≤ 5 := by
  unfold clampConcurrent
  omega

theorem process_queue_bounds (s : MState) (h : Bounds s) : Bounds (process_queue s) := by
  obtain ⟨h1, h2, h3⟩ := h
  exact ⟨h1, h2, process_queue_active_le_five s h3 h2⟩

theorem erase_length_le (l : List String) (u : String) :
    (l.erase u).length ≤ l.length :=
  (List.erase_sublist u l).length_le

theorem applyOp_bounds (s : MState) (op : Op) (h : Bounds s) : Bounds (applyOp s op) := by
  obtain ⟨h1, h2, h3⟩ := h
  have hQ := erase_length_le s.queue
  have hA := erase_length_le s.active
  have hC := erase_length_le s.completed
  have hE := erase_length_le s.errors
  cases op with
  | submit u fo od =>
    show Bounds (add_download s u fo od).1
    unfold add_download
    by_cases hp : inAny s u
    · simp only [if_pos hp]
      exact ⟨h1, h2, h3⟩
    · simp only [if_neg hp]
      exact process_queue_bounds _ ⟨h1, h2, h3⟩
  | pump => exact process_queue_bounds s ⟨h1, h2, h3⟩
  | setMax v =>
    show Bounds (set_max_concurrent s v)
    unfold set_max_concurrent
    exact process_queue_bounds _
      ⟨(clampConcurrent_bounds v).1, (clampConcurrent_bounds v).2, h3⟩
  | complete u d f =>
    show Bounds (on_complete s u d f)
    unfold on_complete
    by_cases hm : u ∈ s.active
    · simp only [if_pos hm]
      exact process_queue_bounds _ ⟨h1, h2, le_trans (hA u) h3⟩
    · simp only [if_neg hm]
      exact ⟨h1, h2, le_trans (hA u) h3⟩
  | error u m =>
    show Bounds (on_error s u m)
    unfold on_error
    by_cases hm : u ∈ s.active
    · simp only [if_pos hm]
      exact process_queue_bounds _ ⟨h1, h2, le_trans (hA u) h3⟩
    · simp only [if_neg hm]
      exact ⟨h1, h2, h3⟩
  | cancel u =>
    show Bounds (cancel_download s u)
    unfold cancel_download
    by_cases hm : u ∈ s.active
    · simp only [if_pos hm]
      exact process_queue_bounds _ ⟨h1, h2, le_trans (hA u) h3⟩
    · simp only [if_neg hm]
      by_cases hq : u ∈ s.queue
      · simp only [if_pos hq]
        exact process_queue_bounds _ ⟨h1, h2, h3⟩
      · simp only [if_neg hq]
        by_cases he : u ∈ s.errors
        · simp only [if_pos he]
          exact process_queue_bounds _ ⟨h1, h2, h3⟩
        · simp only [if_neg he]
          by_cases hc : u ∈ s.completed
          · simp only [if_pos hc]
            exact process_queue_bounds _ ⟨h1, h2, h3⟩
          · simp only [if_neg hc]
            by_cases hmeta : (s.metadata u).isSome
            · simp only [if_pos hmeta]
              exact process_queue_bounds _ ⟨h1, h2, h3⟩
            · simp only [if_neg hmeta]
              exact ⟨h1, h2, h3⟩
  | dismiss u =>
    show Bounds (dismiss_error s u)
    exact ⟨h1, h2, h3⟩

theorem foldl_applyOp_bounds (l : List Op) (s : MState) (hs : Bounds s) :
    Bounds (l.foldl applyOp s) := by
  induction l generalizing s with
  | nil => exact hs
  | cons o l ih => exact ih _ (applyOp_bounds s o hs)

theorem runOps_bounds (ops : List Op) : Bounds (runOps ops) :=
  foldl_applyOp_bounds ops initState ⟨by decide, by decide, by decide⟩

theorem applyOp_active_le (s : MState) (op : Op)
    (hle : s.active.length ≤ s.max_concurrent)
    (hsm : ∀ v, op = Op.setMax v → s.active.length ≤ clampConcurrent v) :
    (applyOp s op).active.length ≤ (applyOp s op).max_concurrent := by
  have hA := erase_length_le s.active
  cases op with
  | submit u fo od =>
    simp only [applyOp, add_download]
    by_cases hp : inAny s u
    · simp only [if_pos hp]
      exact hle
    · simp only [if_neg hp]
      rw [process_queue_max]
      exact process_queue_active_le _ hle
  | pump =>
    simp only [applyOp]
    rw [process_queue_max]
    exact process_queue_active_le s hle
  | setMax v =>
    simp only [applyOp, set_max_concurrent]
    rw [process_queue_max]
    exact process_queue_active_le _ (hsm v rfl)
  | complete u d f =>
    simp only [applyOp, on_complete]
    by_cases hm : u ∈ s.active
    · simp only [if_pos hm]
      rw [process_queue_max]
      exact process_queue_active_le _ (le_trans (hA u) hle)
    · simp only [if_neg hm]
      exact le_trans (hA u) hle
  | error u m =>
    simp only [applyOp, on_error]
    by_cases hm : u ∈ s.active
    · simp only [if_pos hm]
      rw [process_queue_max]
      exact process_queue_active_le _ (le_trans (hA u) hle)
    · simp only [if_neg hm]
      exact hle
  | cancel u =>
    simp only [applyOp, cancel_download]
    by_cases hm : u ∈ s.active
    · simp only [if_pos hm]
      rw [process_queue_max]
      exact process_queue_active_le _ (le_trans (hA u) hle)
    · simp only [if_neg hm]
      by_cases hq : u ∈ s.queue
      · simp only [if_pos hq]
        rw [process_queue_max]
        exact process_queue_active_le _ hle
      · simp only [if_neg hq]
        by_cases he : u ∈ s.errors
        · simp only [if_pos he]
          rw [process_queue_max]
          exact process_queue_active_le _ hle
        · simp only [if_neg he]
          by_cases hc : u ∈ s.completed
          · simp only [if_pos hc]
            rw [process_queue_max]
            exact process_queue_active_le _ hle
          · simp only [if_neg hc]
            by_cases hmeta : (s.metadata u).isSome
            · simp only [if_pos hmeta]
              rw [process_queue_max]
              exact process_queue_active_le _ hle
            · simp only [if_neg hmeta]
              exact hle
  | dismiss u => exact hle

/-! ### Claim theorems -/

/-- Claim C1, counterexample: after submitting two urls (both admitted
under the default limit of 2) and then calling `set_max_concurrent 1`,
the reachable state has 2 active jobs but `max_concurrent = 1`, so
`|active| ≤ maxConcurrent` does not hold at every reachable state. -/
theorem claim_c1_counterexample :
    Reachable (runOps overAdmitTrace) ∧
    (runOps overAdmitTrace).max_concurrent < (runOps overAdmitTrace).active.length :=
  ⟨⟨overAdmitTrace, rfl⟩, by decide⟩

/-- Claim C1, amended: at every reachable state `maxConcurrent ∈ [1,5]`
and `|active| ≤ 5`; and every operation preserves
`|active| ≤ maxConcurrent`, except that `set_max_concurrent` preserves
it only when the clamped new limit is not below the current active
count (a lower value is stored without preempting running jobs, which
is the one way the inequality can break). -/
theorem claim_c1_amended :
    (∀ ops : List Op,
      1 ≤ (runOps ops).max_concurrent ∧ (runOps ops).max_concurrent ≤ 5 ∧
        (runOps ops).active.length ≤ 5) ∧
    (∀ (s : MState) (op : Op), s.active.length ≤ s.max_concurrent →
      (∀ v, op = Op.setMax v → s.active.length ≤ clampConcurrent v) →
      (applyOp s op).active.length ≤ (applyOp s op).max_concurrent) := by
  constructor
  · intro ops
    exact runOps_bounds ops
  · intro s op h1 h2
    exact applyOp_active_le s op h1 h2

/-- Claim C1, witness: the amended statement evaluated on a concrete
trace and a concrete operation. -/
theorem claim_c1_amended_witness :
    (1 ≤ (runOps [Op.pump]).max_concurrent ∧ (runOps [Op.pump]).max_concurrent ≤ 5 ∧
      (runOps [Op.pump]).active.length ≤ 5) ∧
    (applyOp initState Op.pump).active.length ≤ (applyOp initState Op.pump).max_concurrent :=
  ⟨claim_c1_amended.1 [Op.pump],
   claim_c1_amended.2 initState Op.pump (by decide) (fun _ h => Op.noConfusion h)⟩

/-- Claim C2: for a state with no duplicated urls, `add_download`
returns `false` and changes nothing when the normalized key is already
in pending/active/completed/failed; otherwise it returns `true`, and
its under-lock insert appends the key to the end of the pending queue,
leaves the other three collections unchanged, stores the default
metadata (status `'Queued'`) for the key and touches no other
metadata entry; and the whole operation preserves the no-duplicates
invariant. -/
theorem claim_c2_submit (s : MState) (k : String) (fo od : Option String) (hInv : Inv s) :
    (inAny s k → add_download s k fo od = (s, false)) ∧
    (¬ inAny s k →
      (add_download s k fo od).2 = true ∧
      (enqueue s k fo od).queue = s.queue ++ [k] ∧
      (enqueue s k fo od).active = s.active ∧
      (enqueue s k fo od).completed = s.completed ∧
      (enqueue s k fo od).errors = s.errors ∧
      (enqueue s k fo od).metadata k = some (initMeta k fo od) ∧
      (initMeta k fo od).status = "Queued" ∧
      (∀ x, x ≠ k → (enqueue s k fo od).metadata x = s.metadata x)) ∧
    Inv (add_download s k fo od).1 := by
  refine ⟨?_, ?_, ?_⟩
  · intro hp
    simp [add_download, if_pos hp]
  · intro hp
    refine ⟨by simp [add_download, if_neg hp], rfl, rfl, rfl, rfl, ?_, rfl, ?_⟩
    · simp [enqueue, setMeta]
    · intro x hx
      simp [enqueue, setMeta, hx]
  · by_cases hp : inAny s k
    · simp only [add_download, if_pos hp]
      exact hInv
    · simp only [add_download, if_neg hp]
      exact process_queue_inv _ (enqueue_inv s k fo od hInv hp)

/-- Claim C2, witness: a fresh submit returns `true`, and resubmitting
the key once it is active returns `false` and leaves the state
untouched. -/
theorem claim_c2_submit_witness :
    (add_download initState "a" none none).2 = true ∧
    add_download (runOps [Op.submit "a" none none]) "a" none none
      = (runOps [Op.submit "a" none none], false) := by
  constructor
  · exact ((claim_c2_submit initState "a" none none (by decide)).2.1 (by decide)).1
  · exact (claim_c2_submit (runOps [Op.submit "a" none none]) "a" none none
      (by decide)).1 (by decide)

/-- Claim C3: one `_process_queue` call moves exactly
`min(maxConcurrent - |active|, |pending|)` urls, taken from the front
of the pending queue in FIFO order, to the end of the active list; the
remaining pending urls keep their relative order (the queue becomes its
own suffix); every moved url with a metadata entry is marked
`'Starting'`; and the completed list, error list and limit are
untouched. -/
theorem claim_c3_pump (s : MState) (k : String) (me : Meta)
    (hmem : k ∈ s.queue.take (admitCount s)) (hme : s.metadata k = some me) :
    (process_queue s).queue = s.queue.drop (admitCount s) ∧
    (process_queue s).active = s.active ++ s.queue.take (admitCount s) ∧
    (s.queue.take (admitCount s)).length = admitCount s ∧
    ((process_queue s).metadata k).map Meta.status = some "Starting" ∧
    (process_queue s).completed = s.completed ∧
    (process_queue s).errors = s.errors ∧
    (process_queue s).max_concurrent = s.max_concurrent := by
  refine ⟨process_queue_queue s, process_queue_active s, ?_, ?_,
    process_queue_completed s, process_queue_errors s, process_queue_max s⟩
  · rw [List.length_take]
    exact Nat.min_eq_left (admitCount_le_queue s)
  · rw [process_queue_metadata]
    refine foldl_updMeta_status _ _ _ (Or.inr ⟨hmem, ?_⟩)
    rw [hme]
    rfl

/-- Claim C3, witness: with two queued urls and one slot, the earliest
submission is admitted and marked `'Starting'`. -/
theorem claim_c3_pump_witness :
    ((process_queue exPumpState).metadata "a").map Meta.status = some "Starting" ∧
    (process_queue exPumpState).active = exPumpState.active ++ exPumpState.queue.take (admitCount exPumpState) := by
  have h := claim_c3_pump exPumpState "a" (initMeta "a" none none) (by decide) (by decide)
  exact ⟨h.2.2.2.1, h.2.1⟩

theorem attemptClass_eq (r : AttemptResult) (c : DlClass) (h : attemptClass r = some c) :
    ∃ m, r = .dlError m ∧ classifyDlError m = c := by
  cases r with
  | dlError m => exact ⟨m, rfl, by simpa [attemptClass] using h⟩
  | ok => simp [attemptClass] at h
  | hookError m => simp [attemptClass] at h
  | cancelledAbort => simp [attemptClass] at h

/-- Claim C4: when every one of the first three download attempts
raises a transient `DownloadError` (timeout or generic connection
failure), the retry loop makes exactly 3 attempts and then surfaces the
failure with exactly one `error_signal` emission; when the first
attempt raises a terminal `DownloadError` (forbidden, region-blocked,
private/age-restricted, or any other HTTP error code), the loop stops
after exactly one attempt, emits the classified message once, and never
retries. -/
theorem claim_c4_retry (engine : Nat → AttemptResult) :
    ((∀ i, i < 3 → attemptClass (engine i) = some .transient) →
      ∃ m, downloadLoop engine 3 = ⟨.raisedDl m, 3, 0⟩ ∧
        runErrorSignals (downloadLoop engine 3) = 1) ∧
    (∀ msg, engine 0 = .dlError msg → IsTerminalClass (classifyDlError msg) →
      downloadLoop engine 3
          = ⟨.errorReturn (terminalMessage (classifyDlError msg) msg), 1, 1⟩ ∧
        runErrorSignals (downloadLoop engine 3) = 1) := by
  constructor
  · intro h
    obtain ⟨m0, he0, hc0⟩ := attemptClass_eq _ _ (h 0 (by omega))
    obtain ⟨m1, he1, hc1⟩ := attemptClass_eq _ _ (h 1 (by omega))
    obtain ⟨m2, he2, hc2⟩ := attemptClass_eq _ _ (h 2 (by omega))
    have hres : downloadLoop engine 3 = ⟨.raisedDl m2, 3, 0⟩ := by
      simp [downloadLoop, dlLoopGo, he0, hc0, he1, hc1, he2, hc2]
    exact ⟨m2, hres, by rw [hres]; rfl⟩
  · intro msg he0 hterm
    have hres : downloadLoop engine 3
        = ⟨.errorReturn (terminalMessage (classifyDlError msg) msg), 1, 1⟩ := by
      rcases hterm with h | h | h | h <;> simp [downloadLoop, dlLoopGo, he0, h]
    exact ⟨hres, by rw [hres]; rfl⟩

/-- Claim C4, witness: an engine that always times out is retried to
exactly 3 attempts, and an engine that fails with HTTP 403 on the first
attempt stops after one attempt with the forbidden message. -/
theorem claim_c4_retry_witness :
    (∃ m, downloadLoop (fun _ => AttemptResult.dlError "urlopen error timed out") 3
        = ⟨.raisedDl m, 3, 0⟩ ∧
      runErrorSignals
        (downloadLoop (fun _ => AttemptResult.dlError "urlopen error timed out") 3) = 1) ∧
    (downloadLoop (fun _ => AttemptResult.dlError "HTTP Error 403: Forbidden") 3
        = ⟨.errorReturn (terminalMessage
            (classifyDlError "HTTP Error 403: Forbidden") "HTTP Error 403: Forbidden"), 1, 1⟩ ∧
      runErrorSignals
        (downloadLoop (fun _ => AttemptResult.dlError "HTTP Error 403: Forbidden") 3) = 1) := by
  constructor
  · exact (claim_c4_retry _).1 (fun i _ => by decide)
  · exact (claim_c4_retry _).2 "HTTP Error 403: Forbidden" rfl (by decide)

theorem dlLoopGo_cases (engine : Nat → AttemptResult) (fuel a : Nat) :
    (∃ x, dlLoopGo engine fuel a = ⟨.completed, x, 0⟩) ∨
    (∃ x m, dlLoopGo engine fuel a = ⟨.errorReturn m, x, 1⟩) ∨
    (∃ x m, dlLoopGo engine fuel a = ⟨.raisedDl m, x, 0⟩) ∨
    (∃ x m i, dlLoopGo engine fuel a = ⟨.raisedPlain ("Download error: " ++ m), x, 1⟩ ∧
      engine i = .hookError m) ∨
    (∃ x, dlLoopGo engine fuel a = ⟨.raisedPlain "Download cancelled by user", x, 0⟩) := by
  induction fuel generalizing a with
  | zero => exact Or.inl ⟨a, rfl⟩
  | succ fuel ih =>
    cases he : engine a with
    | ok => exact Or.inl ⟨a + 1, by simp [dlLoopGo, he]⟩
    | hookError m =>
      exact Or.inr (Or.inr (Or.inr (Or.inl ⟨a + 1, m, a, by simp [dlLoopGo, he], he⟩)))
    | cancelledAbort =>
      exact Or.inr (Or.inr (Or.inr (Or.inr ⟨a + 1, by simp [dlLoopGo, he]⟩)))
    | dlError m =>
      cases hc : classifyDlError m with
      | transient =>
        cases fuel with
        | zero =>
          exact Or.inr (Or.inr (Or.inl ⟨a + 1, m, by simp [dlLoopGo, he, hc]⟩))
        | succ f =>
          have heq : dlLoopGo engine (f + 1 + 1) a = dlLoopGo engine (f + 1) (a + 1) := by
            rw [dlLoopGo.eq_2, he]
            simp only [hc]
          rw [heq]
          exact ih (a + 1)
      | forbidden403 =>
        exact Or.inr (Or.inl ⟨a + 1, terminalMessage .forbidden403 m, by simp [dlLoopGo, he, hc]⟩)
      | region =>
        exact Or.inr (Or.inl ⟨a + 1, terminalMessage .region m, by simp [dlLoopGo, he, hc]⟩)
      | privateVid =>
        exact Or.inr (Or.inl ⟨a + 1, terminalMessage .privateVid m, by simp [dlLoopGo, he, hc]⟩)
      | httpOther =>
        exact Or.inr (Or.inl ⟨a + 1, terminalMessage .httpOther m, by simp [dlLoopGo, he, hc]⟩)
      | other =>
        exact Or.inr (Or.inr (Or.inl ⟨a + 1, m, by simp [dlLoopGo, he, hc]⟩))

/-- Claim C5, counterexample: an engine whose progress callback reports
`status == 'error'` makes the hook emit `error_signal` and then raise;
the raised exception escapes to the outer handler, which emits a second
`error_signal` — two failure callbacks for one failing execution, not
one. -/
theorem claim_c5_counterexample :
    (downloadLoop (fun _ => AttemptResult.hookError "stream failure") 3).outcome
        ≠ RunOutcome.completed ∧
    runErrorSignals (downloadLoop (fun _ => AttemptResult.hookError "stream failure") 3) = 2 ∧
    runErrorSignals (downloadLoop (fun _ => AttemptResult.hookError "stream failure") 3) ≠ 1 :=
  ⟨by decide, by decide, by decide⟩

/-- Claim C5, amended: every failing execution of the worker delivers
at least one and at most two failure callbacks; two happen only when
some engine attempt took the progress-callback `'error'` path; and
whenever no attempt takes that path, a failing execution delivers
exactly one failure callback. -/
theorem claim_c5_amended (engine : Nat → AttemptResult) :
    ((downloadLoop engine 3).outcome ≠ .completed →
      1 ≤ runErrorSignals (downloadLoop engine 3) ∧
        runErrorSignals (downloadLoop engine 3) ≤ 2) ∧
    (runErrorSignals (downloadLoop engine 3) = 2 → ∃ i m, engine i = .hookError m) ∧
    ((∀ i m, engine i ≠ .hookError m) → (downloadLoop engine 3).outcome ≠ .completed →
      runErrorSignals (downloadLoop engine 3) = 1) := by
  rcases dlLoopGo_cases engine 3 0 with ⟨x, h⟩ | ⟨x, m, h⟩ | ⟨x, m, h⟩ | ⟨x, m, i, h, hi⟩ | ⟨x, h⟩ <;>
    rw [downloadLoop] at * <;> rw [h]
  · refine ⟨fun hne => absurd rfl hne, fun h2 => ?_, fun _ hne => absurd rfl hne⟩
    simp [runErrorSignals] at h2
  · exact ⟨fun _ => ⟨le_refl 1, by norm_num [runErrorSignals]⟩,
      fun h2 => by simp [runErrorSignals] at h2, fun _ _ => rfl⟩
  · exact ⟨fun _ => ⟨le_refl 1, by norm_num [runErrorSignals]⟩,
      fun h2 => by simp [runErrorSignals] at h2, fun _ _ => rfl⟩
  · exact ⟨fun _ => ⟨by norm_num [runErrorSignals], le_refl 2⟩,
      fun _ => ⟨i, m, hi⟩, fun hno _ => absurd hi (hno i m)⟩
  · exact ⟨fun _ => ⟨le_refl 1, by norm_num [runErrorSignals]⟩,
      fun h2 => by simp [runErrorSignals] at h2, fun _ _ => rfl⟩

/-- Claim C5, witness: the amended statement evaluated on an engine
that raises a terminal `DownloadError` — a failing execution with no
hook `'error'` event delivers exactly one failure callback. -/
theorem claim_c5_amended_witness :
    runErrorSignals (downloadLoop (fun _ => AttemptResult.dlError "Private video") 3) = 1 :=
  (claim_c5_amended _).2.2 (fun _ _ h => AttemptResult.noConfusion h) (by decide)

theorem process_queue_not_mem_queue (s : MState) (k : String) (hk : k ∉ s.queue) :
    k ∉ (process_queue s).queue := by
  rw [process_queue_queue]
  intro hm
  exact hk ((List.drop_sublist _ _).subset hm)

theorem process_queue_not_mem_active (s : MState) (k : String)
    (hkA : k ∉ s.active) (hkQ : k ∉ s.queue) : k ∉ (process_queue s).active := by
  rw [process_queue_active]
  intro hm
  rcases List.mem_append.mp hm with hm | hm
  · exact hkA hm
  · exact hkQ ((List.take_sublist _ _).subset hm)

theorem process_queue_metadata_stable (s : MState) (k : String) (hk : k ∉ s.queue) :
    (process_queue s).metadata k = s.metadata k := by
  rw [process_queue_metadata]
  exact foldl_updMeta_not_mem _ _ _ _ (fun hm => hk ((List.take_sublist _ _).subset hm))

theorem inv_facts (s : MState) (h : Inv s) :
    s.queue.Nodup ∧ s.active.Nodup ∧
    (∀ x ∈ s.queue, x ∉ s.active ∧ x ∉ s.completed ∧ x ∉ s.errors) ∧
    (∀ x ∈ s.active, x ∉ s.queue ∧ x ∉ s.completed ∧ x ∉ s.errors) := by
  unfold Inv at h
  simp only [List.append_assoc] at h
  rw [List.nodup_append] at h
  obtain ⟨hq, h2, hdq⟩ := h
  rw [List.nodup_append] at h2
  obtain ⟨ha, h3, hda⟩ := h2
  refine ⟨hq, ha, ?_, ?_⟩
  · intro x hx
    have hnot : ¬ (x ∈ s.active ∨ x ∈ s.completed ∨ x ∈ s.errors) := by
      simpa [List.mem_append] using hdq hx
    push_neg at hnot
    exact hnot
  · intro x hx
    have hce : ¬ (x ∈ s.completed ∨ x ∈ s.errors) := by
      simpa [List.mem_append] using hda hx
    push_neg at hce
    refine ⟨?_, hce.1, hce.2⟩
    intro hxq
    have hnot : ¬ (x ∈ s.active ∨ x ∈ s.completed ∨ x ∈ s.errors) := by
      simpa [List.mem_append] using hdq hxq
    push_neg at hnot
    exact hnot.1 hx

/-- Claim C6, counterexample: cancelling an active download removes the
url from all four collections but does not remove its metadata entry —
the entry is retained with status `'Cancelled'`, so the key is not
absent from the metadata map. -/
theorem claim_c6_counterexample :
    "a" ∈ (runOps [Op.submit "a" none none]).active ∧
    (cancel_download (runOps [Op.submit "a" none none]) "a").metadata "a" ≠ none ∧
    ((cancel_download (runOps [Op.submit "a" none none]) "a").metadata "a").map Meta.status
      = some "Cancelled" :=
  ⟨by decide, by decide, by decide⟩

/-- Claim C6, amended: for a no-duplicates state, cancelling a pending
url removes it from all four collections and from the metadata map;
cancelling an active url removes it from all four collections but keeps
its metadata entry, now marked `'Cancelled'`; in both cases the error
list is untouched, so cancellation never parks a url in the failed
set. -/
theorem claim_c6_cancel (s : MState) (k : String) (hInv : Inv s) :
    (k ∈ s.queue →
      k ∉ (cancel_download s k).queue ∧ k ∉ (cancel_download s k).active ∧
      k ∉ (cancel_download s k).completed ∧ k ∉ (cancel_download s k).errors ∧
      (cancel_download s k).metadata k = none ∧
      (cancel_download s k).errors = s.errors) ∧
    (k ∈ s.active →
      k ∉ (cancel_download s k).queue ∧ k ∉ (cancel_download s k).active ∧
      k ∉ (cancel_download s k).completed ∧ k ∉ (cancel_download s k).errors ∧
      (cancel_download s k).metadata k
        = (s.metadata k).map (fun me => { me with status := "Cancelled" }) ∧
      (cancel_download s k).errors = s.errors) := by
  obtain ⟨hq, ha, hqf, haf⟩ := inv_facts s hInv
  constructor
  · intro hkq
    obtain ⟨hkA, hkC, hkE⟩ := hqf k hkq
    unfold cancel_download
    rw [if_neg hkA, if_pos hkq]
    have hkq' : k ∉ s.queue.erase k := hq.not_mem_erase
    refine ⟨process_queue_not_mem_queue _ _ hkq',
      process_queue_not_mem_active _ _ hkA hkq', hkC, hkE, ?_, rfl⟩
    refine Eq.trans (process_queue_metadata_stable _ _ ?_) ?_
    · exact hkq'
    · simp [removeMeta]
  · intro hka
    obtain ⟨hkQ, hkC, hkE⟩ := haf k hka
    unfold cancel_download
    rw [if_pos hka]
    have hka' : k ∉ s.active.erase k := ha.not_mem_erase
    refine ⟨process_queue_not_mem_queue _ _ hkQ,
      process_queue_not_mem_active _ _ hka' hkQ, hkC, hkE, ?_, rfl⟩
    refine Eq.trans (process_queue_metadata_stable _ _ ?_) ?_
    · exact hkQ
    · exact updMeta_apply_self _ _ _

/-- Claim C6, witness: the amended statement evaluated on a concrete
state with one queued and one active url. -/
theorem claim_c6_cancel_witness :
    (cancel_download exMixedState "p").metadata "p" = none ∧
    (cancel_download exMixedState "a").metadata "a"
      = (exMixedState.metadata "a").map (fun me => { me with status := "Cancelled" }) := by
  have h1 := claim_c6_cancel exMixedState "p" (by decide)
  have h2 := claim_c6_cancel exMixedState "a" (by decide)
  exact ⟨(h1.1 (by decide)).2.2.2.2.1, (h2.2 (by decide)).2.2.2.2.1⟩

theorem pyMax_foldl_spec (xs : List (String × Nat)) (x : String × Nat) :
    (xs.foldl (fun best y => if best.2 < y.2 then y else best) x) ∈ x :: xs ∧
    ∀ d ∈ x :: xs,
      d.2 ≤ (xs.foldl (fun best y => if best.2 < y.2 then y else best) x).2 := by
  induction xs generalizing x with
  | nil =>
    refine ⟨List.mem_singleton_self x, ?_⟩
    intro d hd
    rw [List.mem_singleton.mp hd]
    exact le_refl _
  | cons y ys ih =>
    rw [List.foldl_cons]
    obtain ⟨ihm, ihb⟩ := ih (if x.2 < y.2 then y else x)
    have hstep : (if x.2 < y.2 then y else x) ∈ x :: y :: ys := by
      by_cases hxy : x.2 < y.2 <;> simp [hxy]
    have hx_le : x.2 ≤ (if x.2 < y.2 then y else x).2 := by
      by_cases hxy : x.2 < y.2
      · rw [if_pos hxy]
        exact le_of_lt hxy
      · rw [if_neg hxy]
    have hy_le : y.2 ≤ (if x.2 < y.2 then y else x).2 := by
      by_cases hxy : x.2 < y.2
      · rw [if_pos hxy]
      · rw [if_neg hxy]
        omega
    constructor
    · rcases List.mem_cons.mp ihm with h | h
      · rw [h]
        exact hstep
      · exact List.mem_cons_of_mem _ (List.mem_cons_of_mem _ h)
    · intro d hd
      have hfold := ihb _ (List.mem_cons_self _ _)
      rcases List.mem_cons.mp hd with h | h
      · rw [h]
        exact le_trans hx_le hfold
      · rcases List.mem_cons.mp h with h2 | h2
        · rw [h2]
          exact le_trans hy_le hfold
        · exact ihb d (List.mem_cons_of_mem _ h2)

theorem pyMaxBySize_spec (l : List (String × Nat)) (hne : l ≠ []) :
    ∃ c, pyMaxBySize l = some c ∧ c ∈ l ∧ ∀ d ∈ l, d.2 ≤ c.2 := by
  cases l with
  | nil => exact absurd rfl hne
  | cons x xs =>
    obtain ⟨hm, hb⟩ := pyMax_foldl_spec xs x
    exact ⟨_, rfl, hm, hb⟩

/-- Claim C7: with no filename reported by the engine, a single new
file in the output directory is the output; with several new files,
the set filtered to the known media extensions determines the output —
the single remaining file when exactly one remains, and a remaining
file of maximal size when several remain. -/
theorem claim_c7_filename (newFiles : List (String × Nat)) (f g : String × Nat) :
    (newFiles = [f] → determineFilename none newFiles = some f.1) ∧
    (1 < newFiles.length → newFiles.filter (fun p => isMediaFile p.1) = [g] →
      determineFilename none newFiles = some g.1) ∧
    (1 < newFiles.length → 1 < (newFiles.filter (fun p => isMediaFile p.1)).length →
      ∃ c ∈ newFiles.filter (fun p => isMediaFile p.1),
        determineFilename none newFiles = some c.1 ∧
        ∀ d ∈ newFiles.filter (fun p => isMediaFile p.1), d.2 ≤ c.2) := by
  refine ⟨?_, ?_, ?_⟩
  · intro h
    subst h
    rfl
  · intro hlen hfilter
    cases newFiles with
    | nil => simp at hlen
    | cons a t =>
      cases t with
      | nil => simp at hlen
      | cons b l =>
        simp only [determineFilename]
        rw [if_pos (by simp)]
        rw [hfilter]
        simp
  · intro hlen hml
    cases newFiles with
    | nil => simp at hlen
    | cons a t =>
      cases t with
      | nil => simp at hlen
      | cons b l =>
        simp only [determineFilename]
        rw [if_pos (by simp)]
        rw [if_neg (by omega)]
        rw [if_pos hml]
        obtain ⟨c, hps, hcm, hcb⟩ := pyMaxBySize_spec
          ((a :: b :: l).filter (fun p => isMediaFile p.1))
          (by
            intro h
            rw [h] at hml
            simp at hml)
        refine ⟨c, hcm, ?_, hcb⟩
        rw [hps]
        rfl

/-- Claim C7, witness: the three identification rules evaluated on
concrete directory diffs. -/
theorem claim_c7_filename_witness :
    determineFilename none [("clip.bin", 7)] = some "clip.bin" ∧
    determineFilename none [("video.mp4", 10), ("subs.srt", 2)] = some "video.mp4" ∧
    (∃ c ∈ [("small.mp4", 5), ("big.webm", 9), ("subs.srt", 1)].filter
        (fun p => isMediaFile p.1),
      determineFilename none [("small.mp4", 5), ("big.webm", 9), ("subs.srt", 1)]
        = some c.1 ∧
      ∀ d ∈ [("small.mp4", 5), ("big.webm", 9), ("subs.srt", 1)].filter
        (fun p => isMediaFile p.1), d.2 ≤ c.2) := by
  refine ⟨?_, ?_, ?_⟩
  · exact (claim_c7_filename [("clip.bin", 7)] ("clip.bin", 7) ("clip.bin", 7)).1 rfl
  · exact (claim_c7_filename [("video.mp4", 10), ("subs.srt", 2)]
      ("video.mp4", 10) ("video.mp4", 10)).2.1 (by decide) (by decide)
  · exact (claim_c7_filename [("small.mp4", 5), ("big.webm", 9), ("subs.srt", 1)]
      ("small.mp4", 5) ("small.mp4", 5)).2.2 (by decide) (by decide)

/-- Claim C8: contrary to the claimed rule, both metadata handlers emit
`download_started` while the mutex is held — whenever the url still has
a metadata entry the emission happens between `lock` and `unlock` — while a
method following the discipline (`add_download`) emits only after
unlocking. -/
theorem claim_c8_emit_under_lock :
    emitsUnderLock (handle_metadata_finished_trace true) = true ∧
    emitsUnderLock (handle_metadata_error_trace true) = true ∧
    emitsUnderLock (handle_metadata_finished_trace false) = false ∧
    emitsUnderLock (add_download_trace true) = false ∧
    emitsUnderLock (add_download_trace false) = false := by
  decide

/-- Claim C9: after cancelling an active download whose worker stopped
cooperatively within the grace period (so no force termination
happened), `cancel_download` still runs `_cleanup_temp_files` — the
cleanup call sits outside the force-termination branch, guarded only by
the output directory and title being known. -/
theorem claim_c9_cleanup_without_force :
    CancelAct.cleanupTempFiles ∈
      cancel_post_lock_actions true true (some "/downloads") (some "Cool Video") ∧
    CancelAct.forceTerminate ∉
      cancel_post_lock_actions true true (some "/downloads") (some "Cool Video") ∧
    CancelAct.cleanupTempFiles ∈
      cancel_post_lock_actions true false (some "/downloads") (some "Cool Video") := by
  decide

/-- Claim C10, counterexample: `_handle_metadata_finished` overwrites
the stored title unconditionally, so a job holding a real fetched title
gets it replaced by the fetcher's hard-coded `Unknown Title` fallback —
a placeholder overwrites a real title. -/
theorem claim_c10_counterexample :
    isPlaceholderTitle "My Real Video" = false ∧
    isPlaceholderTitle fullFetchFallbackTitle = true ∧
    (exRealTitleState.metadata "u").map Meta.title = some "My Real Video" ∧
    ((handle_metadata_finished exRealTitleState "u" fullFetchFallbackTitle none).metadata
        "u").map Meta.title = some fullFetchFallbackTitle := by
  refine ⟨by decide, by decide, by decide, by decide⟩

/-- Claim C10, amended: the quick-metadata path applies the improvement
guard — a title that does not start with `Loading` is never replaced
there by an empty or `Loading:`-prefixed incoming title — while the
full-metadata path stores whatever title the fetch produced,
unconditionally. -/
theorem claim_c10_amended :
    (∀ cur inc : String, "Loading".data.isPrefixOf cur.data = false →
      (inc.isEmpty || "Loading:".data.isPrefixOf inc.data) = true →
      quickTitleUpdate cur inc = cur) ∧
    (∀ (s : MState) (url t : String) (p : Option String) (me : Meta),
      s.metadata url = some me →
      ((handle_metadata_finished s url t p).metadata url).map Meta.title = some t) := by
  constructor
  · intro cur inc h1 h2
    rcases Bool.or_eq_true_iff.mp h2 with he | hp
    · simp [quickTitleUpdate, he, h1]
    · simp [quickTitleUpdate, hp, h1]
  · intro s url t p me hme
    have hproj : (handle_metadata_finished s url t p).metadata url
        = (s.metadata url).map (fun me => { me with title := t, thumbnail := p }) :=
      updMeta_apply_self _ _ _
    rw [hproj, hme]
    rfl

/-- Claim C10, witness: the amended statement evaluated on a real title
with a placeholder update (quick path keeps the real title) and on a
stored entry overwritten by the full path. -/
theorem claim_c10_amended_witness :
    quickTitleUpdate "My Real Video" "Loading: youtube video" = "My Real Video" ∧
    ((handle_metadata_finished exRealTitleState "u" "Another Title" none).metadata
        "u").map Meta.title = some "Another Title" := by
  constructor
  · exact claim_c10_amended.1 "My Real Video" "Loading: youtube video" (by decide) (by decide)
  · exact claim_c10_amended.2 exRealTitleState "u" "Another Title" none
      { initMeta "u" none none with title := "My Real Video" } (by decide)

end YoutubeMaster
